import Mathlib

/-
Verification of the size-constrained image encoder of the IABP monitor
analyzer.  The Python function `compress_image` (src/app.py, lines 105-157)
and its caller, the full-analysis button handler (lines 264-274), are
shallowly embedded below.  The JPEG codec itself is an external library; it
is modelled by an oracle `Dims → Nat → List Nat` giving, for the pixel
dimensions handed to `img.save` and the requested quality, the byte stream
the codec produces for the (fixed) picture being compressed.
-/

namespace IABP

/-- A pixel with red, green, blue and alpha channels, each in 0..255. -/
structure Pixel where
  r : Nat
  g : Nat
  b : Nat
  a : Nat
deriving DecidableEq, Repr

/-- The color modes distinguished by lines 112-121 of compress_image:
RGB is passed through, RGBA and LA are flattened onto white, and every
other mode (grayscale, palette, ...) goes through convert to RGB. -/
inductive ColorMode where
  | rgb
  | rgba
  | la
  | other
deriving DecidableEq, Repr

/-- A decoded bitmap: dimensions, color mode and pixel contents.
LA pixels are stored with the gray value replicated into r, g, b. -/
structure Img where
  width : Nat
  height : Nat
  mode : ColorMode
  px : Nat → Nat → Pixel

/-- Pillow's MULDIV255 macro, the rounding multiply used by Image.paste
when blending through an 8-bit mask: tmp := a*b + 128, then
((tmp >> 8) + tmp) >> 8. -/
def muldiv255 (a b : Nat) : Nat :=
  ((a * b + 128) / 256 + (a * b + 128)) / 256

/-- One channel of background.paste(img, mask=alpha) for a white (255)
background pixel: Pillow's BLEND macro MULDIV255(255, 255-a) +
MULDIV255(c, a). -/
def blendWhite (c a : Nat) : Nat :=
  muldiv255 255 (255 - a) + muldiv255 c a

/-- A source pixel flattened onto the opaque white background built at
line 114 of compress_image; the result carries no transparency. -/
def flattenPixel (p : Pixel) : Pixel :=
  ⟨blendWhite p.r p.a, blendWhite p.g p.a, blendWhite p.b p.a, 255⟩

/-- Lines 112-121 of compress_image: if the mode is not RGB, an RGBA or LA
image is pasted onto an opaque white RGB background through its alpha
channel, and any other mode is converted to RGB (alpha forced opaque). -/
def normalizeMode (img : Img) : Img :=
  if img.mode = ColorMode.rgb then img
  else if img.mode = ColorMode.rgba ∨ img.mode = ColorMode.la then
    { img with mode := ColorMode.rgb, px := fun x y => flattenPixel (img.px x y) }
  else
    { img with mode := ColorMode.rgb, px := fun x y => { img.px x y with a := 255 } }

/-- Pixel dimensions of an image, as handed to resize and save. -/
structure Dims where
  w : Nat
  h : Nat
deriving DecidableEq, Repr

/-- Rounding division n / d to the nearest natural number (halves up),
modelling the float round used by Pillow's thumbnail aspect fit. -/
def natRound (n d : Nat) : Nat := (2 * n + d) / (2 * d)

/-- Pillow's Image.thumbnail aspect-preserving fit of dimensions d into a
box mw x mh (for d exceeding the box): if the box aspect is at least the
image aspect the height is pinned to mh, otherwise the width to mw; the
free coordinate is rounded and clamped to at least 1. -/
def fitWithin (d : Dims) (mw mh : Nat) : Dims :=
  if mh * d.w ≤ mw * d.h then
    ⟨max 1 (natRound (mh * d.w) d.h), mh⟩
  else
    ⟨mw, max 1 (natRound (mw * d.h) d.w)⟩

/-- Lines 123-127 of compress_image: the initial dimension cap.  When a
dimension exceeds 1280 x 720 the image is thumbnailed into that box once,
before the candidate search; otherwise it is left untouched. -/
def capDims (d : Dims) : Dims :=
  if 1280 < d.w ∨ 720 < d.h then fitWithin d 1280 720 else d

/-- Line 152 of compress_image: the final fallback thumbnails the capped
image into 640 x 480 (Image.thumbnail resizes only when a dimension
exceeds the box). -/
def thumb640 (d : Dims) : Dims :=
  if 640 < d.w ∨ 480 < d.h then fitWithin d 640 480 else d

/-- Line 140 of compress_image: new_size = (int(w*scale), int(h*scale))
for a scale written as s/10 with s one of 9..4. -/
def scaleDims (d : Dims) (s : Nat) : Dims :=
  ⟨d.w * s / 10, d.h * s / 10⟩

/-- The quality ladder of the first loop, line 129. -/
def qualityLadder : List Nat := [80, 70, 60, 50, 40, 30, 20, 15, 10]

/-- The scale ladder of the second loop, line 139 (tenths: 0.9 .. 0.4). -/
def scaleLadder : List Nat := [9, 8, 7, 6, 5, 4]

/-- The codec oracle: byte stream produced by img.save for given pixel
dimensions and JPEG quality, for the one picture being compressed. -/
abbrev Enc : Type := Dims → Nat → List Nat

/-- Lines 129-137: walk the quality ladder at the capped size and return
the first (quality, bytes) whose raw byte count fits the target. -/
def findQuality (enc : Enc) (d : Dims) (t : Nat) : List Nat → Option (Nat × List Nat)
  | [] => none
  | q :: qs =>
      let bs := enc d q
      if bs.length ≤ t then some (q, bs) else findQuality enc d t qs

/-- Lines 139-150: walk the scale ladder, re-encoding the capped image at
quality 60, and return the first (scale, bytes) whose raw byte count fits
the target. -/
def findScale (enc : Enc) (d : Dims) (t : Nat) : List Nat → Option (Nat × List Nat)
  | [] => none
  | s :: ss =>
      let bs := enc (scaleDims d s) 60
      if bs.length ≤ t then some (s, bs) else findScale enc d t ss

/-- The observable outcome of compress_image: the returned byte stream,
together with ghost observations of the trace (which scale in tenths and
quality produced it, and whether the unconditional fallback fired).  The
Python function returns (bytes, megabytes); the extra fields only record
which return statement produced them. -/
structure Output where
  bytes : List Nat
  scaleNum : Nat
  quality : Nat
  usedFallback : Bool
deriving DecidableEq, Repr

/-- Lines 105-157 of src/app.py, compress_image: normalize dimensions once,
try the quality ladder at full (capped) scale, then the scale ladder at
quality 60, and finally return the 640 x 480 quality-50 encode with no
size check at all.  The target defaults to 4,500,000 raw bytes at the
call sites. -/
def compress_image (enc : Enc) (d0 : Dims) (t : Nat) : Output :=
  let d := capDims d0
  match findQuality enc d t qualityLadder with
  | some (q, bs) => ⟨bs, 10, q, false⟩
  | none =>
      match findScale enc d t scaleLadder with
      | some (s, bs) => ⟨bs, s, 60, false⟩
      | none => ⟨enc (thumb640 d) 50, 10, 50, true⟩

/-- Length of the standard padded base64 text encoding of n raw bytes. -/
def b64Len (n : Nat) : Nat := (n + 2) / 3 * 4

/-- Lines 264-274, the Full AI Analysis button handler: compress with the
default 4,500,000-byte target, raise (modelled as Except.error carrying
the raw size) when the raw size exceeds 5,000,000, and otherwise hand the
base64 text, of length b64Len, to the request (modelled by returning the
text length). -/
def full_analysis_prepare (enc : Enc) (d0 : Dims) : Except Nat Nat :=
  let out := compress_image enc d0 4500000
  let n := out.bytes.length
  if 5000000 < n then Except.error n else Except.ok (b64Len n)

/-- The (dimensions, quality) pairs encoded by the two search loops of
compress_image, in the order the code visits them: the quality ladder at
the capped size, then the scale ladder at quality 60. -/
def codeCandidates (d0 : Dims) : List (Dims × Nat) :=
  let d := capDims d0
  qualityLadder.map (fun q => (d, q)) ++ scaleLadder.map (fun s => (scaleDims d s, 60))

/-- The budget evaluator of lines 136 and 149, as a Boolean predicate on a
candidate: the raw byte count of its encode fits the target. -/
def fitsCand (enc : Enc) (t : Nat) (c : Dims × Nat) : Bool :=
  decide ((enc c.1 c.2).length ≤ t)

/-- The scale ladder described by the specification: the full-scale tier
first, then the code's descending scale tiers. -/
def specScaleLadder : List Nat := [10, 9, 8, 7, 6, 5, 4]

/-- Modelled from the spec ladder order: within one scale tier, try the
whole descending quality ladder. -/
def specFindAt (enc : Enc) (d : Dims) (t : Nat) (s : Nat) :
    List Nat → Option (Nat × Nat × List Nat)
  | [] => none
  | q :: qs =>
      let bs := enc (scaleDims d s) q
      if bs.length ≤ t then some (s, q, bs) else specFindAt enc d t s qs

/-- Modelled from the spec search order (outer scale descending, inner
quality descending): the first fitting candidate in that nested order.
This follows the specification's words and is compared against
compress_image, which iterates differently. -/
def specSearch (enc : Enc) (d : Dims) (t : Nat) :
    List Nat → Option (Nat × Nat × List Nat)
  | [] => none
  | s :: ss =>
      match specFindAt enc d t s qualityLadder with
      | some r => some r
      | none => specSearch enc d t ss

/-- Number of encodes the quality loop performs on a given ladder: it
stops at the first fitting candidate. -/
def countQuality (enc : Enc) (d : Dims) (t : Nat) : List Nat → Nat
  | [] => 0
  | q :: qs =>
      if (enc d q).length ≤ t then 1 else 1 + countQuality enc d t qs

/-- Number of encodes the scale loop performs on a given ladder. -/
def countScale (enc : Enc) (d : Dims) (t : Nat) : List Nat → Nat
  | [] => 0
  | s :: ss =>
      if (enc (scaleDims d s) 60).length ≤ t then 1
      else 1 + countScale enc d t ss

/-- Total number of encode operations one call of compress_image performs:
the quality loop, then (when it fails) the scale loop, then (when that
fails too) the single fallback encode. -/
def visitedCount (enc : Enc) (d0 : Dims) (t : Nat) : Nat :=
  let d := capDims d0
  match findQuality enc d t qualityLadder with
  | some _ => countQuality enc d t qualityLadder
  | none =>
      qualityLadder.length +
        match findScale enc d t scaleLadder with
        | some _ => countScale enc d t scaleLadder
        | none => scaleLadder.length + 1

/-- Concrete codec oracle: every encode is 25 bytes long. -/
def enc25 : Enc := fun _ _ => List.replicate 25 0

/-- Concrete codec oracle: every encode is 20 bytes long. -/
def encBig : Enc := fun _ _ => List.replicate 20 0

/-- Concrete codec oracle: every encode is empty. -/
def encEmpty : Enc := fun _ _ => []

/-- Concrete codec oracle: encodes of a 100-pixel-wide image are 10 bytes,
anything else is the single byte equal to the requested quality. -/
def enc2ce : Enc := fun d q => if d.w = 100 then List.replicate 10 0 else [q]

/-- Concrete 1 x 1 RGBA test image whose only pixel is fully transparent. -/
def imgT : Img := ⟨1, 1, ColorMode.rgba, fun _ _ => ⟨10, 20, 30, 0⟩⟩

theorem muldiv255_eq (a b : Nat) (ha : a ≤ 255) (hb : b ≤ 255) :
    muldiv255 a b = (a * b + 127) / 255 := by
  have h : a * b ≤ 65025 := Nat.mul_le_mul ha hb
  unfold muldiv255
  generalize a * b = S at h ⊢
  omega

theorem blendWhite_eq (c a : Nat) (hc : c ≤ 255) (ha : a ≤ 255) :
    blendWhite c a = (c * a + 255 * (255 - a) + 127) / 255 := by
  unfold blendWhite
  rw [muldiv255_eq 255 (255 - a) (le_refl 255) (by omega),
    muldiv255_eq c a hc ha]
  have h : c * a ≤ 65025 := Nat.mul_le_mul hc ha
  generalize c * a = S at h ⊢
  omega

theorem blendWhite_transparent (c : Nat) (hc : c ≤ 255) : blendWhite c 0 = 255 := by
  rw [blendWhite_eq c 0 hc (by omega)]
  omega

theorem blendWhite_opaque (c : Nat) (hc : c ≤ 255) : blendWhite c 255 = c := by
  rw [blendWhite_eq c 255 hc (le_refl 255)]
  omega

/-- Claim C5: for every RGBA or LA input with in-range channels,
normalization produces a 3-channel RGB image (mode RGB, alpha forced to
255 everywhere, so no 4-channel buffer reaches the encode step) in which
each color channel equals the source channel alpha-composited over an
opaque white background by standard alpha blending, rounded to nearest;
in particular a fully transparent pixel becomes pure opaque white and a
fully opaque pixel keeps its color. -/
theorem alpha_flatten_correct (img : Img)
    (hm : img.mode = ColorMode.rgba ∨ img.mode = ColorMode.la)
    (hb : ∀ x y, (img.px x y).r ≤ 255 ∧ (img.px x y).g ≤ 255 ∧
      (img.px x y).b ≤ 255 ∧ (img.px x y).a ≤ 255) :
    (normalizeMode img).mode = ColorMode.rgb ∧
    (∀ x y, ((normalizeMode img).px x y).a = 255) ∧
    (∀ x y, ((normalizeMode img).px x y).r =
        ((img.px x y).r * (img.px x y).a + 255 * (255 - (img.px x y).a) + 127) / 255 ∧
      ((normalizeMode img).px x y).g =
        ((img.px x y).g * (img.px x y).a + 255 * (255 - (img.px x y).a) + 127) / 255 ∧
      ((normalizeMode img).px x y).b =
        ((img.px x y).b * (img.px x y).a + 255 * (255 - (img.px x y).a) + 127) / 255) ∧
    (∀ x y, (img.px x y).a = 0 → (normalizeMode img).px x y = ⟨255, 255, 255, 255⟩) ∧
    (∀ x y, (img.px x y).a = 255 →
      (normalizeMode img).px x y =
        ⟨(img.px x y).r, (img.px x y).g, (img.px x y).b, 255⟩) := by
  have hne : ¬ img.mode = ColorMode.rgb := by
    rcases hm with h | h <;> rw [h] <;> intro hcontra <;> cases hcontra
  have hpx : ∀ x y, (normalizeMode img).px x y = flattenPixel (img.px x y) := by
    intro x y
    unfold normalizeMode
    rw [if_neg hne, if_pos hm]
  have hmode : (normalizeMode img).mode = ColorMode.rgb := by
    unfold normalizeMode
    rw [if_neg hne, if_pos hm]
  refine ⟨hmode, ?_, ?_, ?_, ?_⟩
  · intro x y; rw [hpx x y]; rfl
  · intro x y
    rw [hpx x y]
    obtain ⟨hr, hg, hbb, ha⟩ := hb x y
    exact ⟨blendWhite_eq _ _ hr ha, blendWhite_eq _ _ hg ha, blendWhite_eq _ _ hbb ha⟩
  · intro x y h0
    rw [hpx x y]
    obtain ⟨hr, hg, hbb, _⟩ := hb x y
    unfold flattenPixel
    rw [h0, blendWhite_transparent _ hr, blendWhite_transparent _ hg,
      blendWhite_transparent _ hbb]
  · intro x y h255
    rw [hpx x y]
    obtain ⟨hr, hg, hbb, _⟩ := hb x y
    unfold flattenPixel
    rw [h255, blendWhite_opaque _ hr, blendWhite_opaque _ hg, blendWhite_opaque _ hbb]

/-- Witness for C5 at a concrete fully transparent 1 x 1 RGBA image: the
flattened pixel is pure opaque white. -/
theorem alpha_flatten_correct_witness :
    (normalizeMode imgT).px 0 0 = ⟨255, 255, 255, 255⟩ := by
  have hb : ∀ x y, (imgT.px x y).r ≤ 255 ∧ (imgT.px x y).g ≤ 255 ∧
      (imgT.px x y).b ≤ 255 ∧ (imgT.px x y).a ≤ 255 := by
    intro x y
    refine ⟨?_, ?_, ?_, ?_⟩ <;> simp [imgT]
  exact (alpha_flatten_correct imgT (Or.inl rfl) hb).2.2.2.1 0 0 rfl

theorem findQuality_some_le (enc : Enc) (d : Dims) (t : Nat) :
    ∀ qs q bs, findQuality enc d t qs = some (q, bs) → bs.length ≤ t := by
  intro qs
  induction qs with
  | nil => intro q bs h; cases h
  | cons a l ih =>
      intro q bs h
      simp only [findQuality] at h
      by_cases hc : (enc d a).length ≤ t
      · rw [if_pos hc] at h
        cases h
        exact hc
      · rw [if_neg hc] at h
        exact ih q bs h

theorem findScale_some_le (enc : Enc) (d : Dims) (t : Nat) :
    ∀ ss s bs, findScale enc d t ss = some (s, bs) → bs.length ≤ t := by
  intro ss
  induction ss with
  | nil => intro s bs h; cases h
  | cons a l ih =>
      intro s bs h
      simp only [findScale] at h
      by_cases hc : (enc (scaleDims d a) 60).length ≤ t
      · rw [if_pos hc] at h
        cases h
        exact hc
      · rw [if_neg hc] at h
        exact ih s bs h

theorem findQuality_none_of (enc : Enc) (d : Dims) (t : Nat) :
    ∀ qs, (∀ q ∈ qs, t < (enc d q).length) → findQuality enc d t qs = none := by
  intro qs
  induction qs with
  | nil => intro _; rfl
  | cons a l ih =>
      intro h
      simp only [findQuality]
      rw [if_neg (Nat.not_le.mpr (h a (List.mem_cons_self a l)))]
      exact ih fun q hq => h q (List.mem_cons_of_mem a hq)

theorem findScale_none_of (enc : Enc) (d : Dims) (t : Nat) :
    ∀ ss, (∀ s ∈ ss, t < (enc (scaleDims d s) 60).length) →
      findScale enc d t ss = none := by
  intro ss
  induction ss with
  | nil => intro _; rfl
  | cons a l ih =>
      intro h
      simp only [findScale]
      rw [if_neg (Nat.not_le.mpr (h a (List.mem_cons_self a l)))]
      exact ih fun s hs => h s (List.mem_cons_of_mem a hs)

theorem compress_cases (enc : Enc) (d0 : Dims) (t : Nat) :
    (∃ q bs, findQuality enc (capDims d0) t qualityLadder = some (q, bs) ∧
      compress_image enc d0 t = ⟨bs, 10, q, false⟩) ∨
    (findQuality enc (capDims d0) t qualityLadder = none ∧
      ∃ s bs, findScale enc (capDims d0) t scaleLadder = some (s, bs) ∧
        compress_image enc d0 t = ⟨bs, s, 60, false⟩) ∨
    (findQuality enc (capDims d0) t qualityLadder = none ∧
      findScale enc (capDims d0) t scaleLadder = none ∧
      compress_image enc d0 t = ⟨enc (thumb640 (capDims d0)) 50, 10, 50, true⟩) := by
  cases hq : findQuality enc (capDims d0) t qualityLadder with
  | some p =>
      exact Or.inl ⟨p.1, p.2, by rw [← hq], by simp only [compress_image, hq]⟩
  | none =>
      cases hs : findScale enc (capDims d0) t scaleLadder with
      | some p =>
          exact Or.inr (Or.inl ⟨rfl, p.1, p.2, rfl,
            by simp only [compress_image, hq, hs]⟩)
      | none =>
          exact Or.inr (Or.inr ⟨rfl, rfl, by simp only [compress_image, hq, hs]⟩)

/-- Claim C6 (short-circuit): when the encode of the normalized image at
the top of the quality ladder (quality 80) already fits the budget,
compress_image returns exactly that encode, with no downscaling (scale
1.0, quality 80, no fallback). -/
theorem short_circuit_full_quality (enc : Enc) (d0 : Dims) (t : Nat)
    (h : (enc (capDims d0) 80).length ≤ t) :
    compress_image enc d0 t = ⟨enc (capDims d0) 80, 10, 80, false⟩ := by
  have hq : findQuality enc (capDims d0) t qualityLadder =
      some (80, enc (capDims d0) 80) := by
    simp only [qualityLadder, findQuality]
    rw [if_pos h]
  simp only [compress_image, hq]

/-- Witness for C6: an oracle producing empty streams fits a zero budget
at quality 80 and is returned unscaled. -/
theorem short_circuit_full_quality_witness :
    compress_image encEmpty ⟨10, 10⟩ 0 = ⟨[], 10, 80, false⟩ :=
  short_circuit_full_quality encEmpty ⟨10, 10⟩ 0 (by simp [encEmpty])

/-- Claim C9 (determinism): compress_image is a pure function of its
inputs; two invocations whose codec oracles agree extensionally produce
identical results, bit for bit, with no dependence on any other state. -/
theorem compress_deterministic (enc1 enc2 : Enc) (d0 : Dims) (t : Nat)
    (h : ∀ d q, enc1 d q = enc2 d q) :
    compress_image enc1 d0 t = compress_image enc2 d0 t := by
  have he : enc1 = enc2 := funext fun d => funext fun q => h d q
  rw [he]

/-- Witness for C9 at a concrete oracle and input. -/
theorem compress_deterministic_witness :
    compress_image encEmpty ⟨10, 10⟩ 100 = compress_image encEmpty ⟨10, 10⟩ 100 :=
  compress_deterministic encEmpty encEmpty ⟨10, 10⟩ 100 fun _ _ => rfl

/-- Counterexample to C1 as stated: with budget (effective target) 30 the
search succeeds without fallback and its raw size 25 fits, yet the
base64 text length of the returned payload is 36 > 30.  The size bound of
compress_image is enforced on raw bytes, not on the text encoding. -/
theorem size_invariant_counterexample :
    (compress_image enc25 ⟨100, 100⟩ 30).usedFallback = false ∧
    (compress_image enc25 ⟨100, 100⟩ 30).bytes.length ≤ 30 ∧
    ¬ b64Len (compress_image enc25 ⟨100, 100⟩ 30).bytes.length ≤ 30 := by
  decide

/-- Claim C1 amended: the guarantee that holds is on raw bytes and at the
caller's hard ceiling: whenever the full-analysis pipeline succeeds, the
base64 text it sends has length at most b64Len 5000000 = 6666668; results
produced by the two search loops additionally satisfy the raw 4,500,000
byte target (see the C4 amended theorem). -/
theorem pipeline_text_length_bound (enc : Enc) (d0 : Dims) (n : Nat)
    (h : full_analysis_prepare enc d0 = Except.ok n) : n ≤ 6666668 := by
  simp only [full_analysis_prepare] at h
  by_cases hn : 5000000 < (compress_image enc d0 4500000).bytes.length
  · rw [if_pos hn] at h
    cases h
  · rw [if_neg hn] at h
    cases h
    have hm : (compress_image enc d0 4500000).bytes.length ≤ 5000000 :=
      Nat.not_lt.mp hn
    calc b64Len (compress_image enc d0 4500000).bytes.length
        ≤ b64Len 5000000 :=
          Nat.mul_le_mul_right 4 (Nat.div_le_div_right (by omega))
      _ = 6666668 := by decide

/-- Witness for the C1 amended theorem at a concrete oracle. -/
theorem pipeline_text_length_bound_witness : (0 : Nat) ≤ 6666668 :=
  pipeline_text_length_bound encEmpty ⟨10, 10⟩ 0 rfl

/-- Counterexample to C4 as stated: at budget 33 the first candidate is
accepted because its raw length 25 fits, although its base64 text length
36 does not; the fits predicate is therefore applied to the raw binary
length, not to the text-encoded length. -/
theorem fits_on_text_counterexample :
    (compress_image enc25 ⟨100, 100⟩ 33).usedFallback = false ∧
    (compress_image enc25 ⟨100, 100⟩ 33).bytes.length = 25 ∧
    b64Len 25 = 36 ∧
    ¬ b64Len (compress_image enc25 ⟨100, 100⟩ 33).bytes.length ≤ 33 := by
  decide

/-- Claim C4 amended: at every search step the fits predicate is applied
to the raw binary byte length, so any result accepted by the two loops
(no fallback) has raw byte length within the target. -/
theorem accepted_raw_length_le (enc : Enc) (d0 : Dims) (t : Nat)
    (h : (compress_image enc d0 t).usedFallback = false) :
    (compress_image enc d0 t).bytes.length ≤ t := by
  rcases compress_cases enc d0 t with ⟨q, bs, hq, he⟩ | ⟨_, s, bs, hs, he⟩ | ⟨_, _, he⟩
  · rw [he]
    exact findQuality_some_le enc (capDims d0) t qualityLadder q bs hq
  · rw [he]
    exact findScale_some_le enc (capDims d0) t scaleLadder s bs hs
  · rw [he] at h
    cases h

/-- Witness for the C4 amended theorem at a concrete input. -/
theorem accepted_raw_length_le_witness :
    (compress_image enc25 ⟨100, 100⟩ 30).bytes.length ≤ 30 :=
  accepted_raw_length_le enc25 ⟨100, 100⟩ 30 (by decide)

/-- Counterexample to C3 as stated: with budget 10 every candidate is too
large, yet compress_image does not report any failure: it returns the
unconditional fallback payload of 20 bytes, which exceeds the budget. -/
theorem unsatisfiable_budget_counterexample :
    (compress_image encBig ⟨100, 100⟩ 10).usedFallback = true ∧
    (compress_image encBig ⟨100, 100⟩ 10).bytes.length = 20 ∧
    ¬ (compress_image encBig ⟨100, 100⟩ 10).bytes.length ≤ 10 := by
  decide

/-- Claim C3 amended: when every candidate exceeds the budget the search
is exhausted and compress_image returns, unconditionally and without any
typed failure, the fallback encode of the capped image thumbnailed into
640 x 480 at quality 50, whatever its size. -/
theorem exhausted_returns_fallback (enc : Enc) (d0 : Dims) (t : Nat)
    (h : ∀ d q, t < (enc d q).length) :
    compress_image enc d0 t = ⟨enc (thumb640 (capDims d0)) 50, 10, 50, true⟩ := by
  have hq : findQuality enc (capDims d0) t qualityLadder = none :=
    findQuality_none_of enc (capDims d0) t qualityLadder fun q _ => h _ q
  have hs : findScale enc (capDims d0) t scaleLadder = none :=
    findScale_none_of enc (capDims d0) t scaleLadder fun s _ => h _ 60
  simp only [compress_image, hq, hs]

/-- Witness for the C3 amended theorem at a concrete all-too-large
oracle. -/
theorem exhausted_returns_fallback_witness :
    compress_image encBig ⟨100, 100⟩ 10 = ⟨List.replicate 20 0, 10, 50, true⟩ :=
  exhausted_returns_fallback encBig ⟨100, 100⟩ 10 (by intro d q; simp [encBig])

theorem findQuality_some_val (enc : Enc) (d : Dims) (t : Nat) :
    ∀ qs q bs, findQuality enc d t qs = some (q, bs) → bs = enc d q := by
  intro qs
  induction qs with
  | nil => intro q bs h; cases h
  | cons a l ih =>
      intro q bs h
      simp only [findQuality] at h
      by_cases hc : (enc d a).length ≤ t
      · rw [if_pos hc] at h
        cases h
        rfl
      · rw [if_neg hc] at h
        exact ih q bs h

theorem findScale_some_val (enc : Enc) (d : Dims) (t : Nat) :
    ∀ ss s bs, findScale enc d t ss = some (s, bs) → bs = enc (scaleDims d s) 60 := by
  intro ss
  induction ss with
  | nil => intro s bs h; cases h
  | cons a l ih =>
      intro s bs h
      simp only [findScale] at h
      by_cases hc : (enc (scaleDims d a) 60).length ≤ t
      · rw [if_pos hc] at h
        cases h
        rfl
      · rw [if_neg hc] at h
        exact ih s bs h

theorem find_append {α : Type} (p : α → Bool) :
    ∀ l1 l2 : List α, (l1 ++ l2).find? p = ((l1.find? p).orElse fun _ => l2.find? p) := by
  intro l1 l2
  induction l1 with
  | nil => rfl
  | cons a l ih =>
      cases hpa : p a with
      | true => simp [List.find?, hpa]
      | false => simp [List.find?, hpa, ih]

theorem find_map_quality (enc : Enc) (d : Dims) (t : Nat) :
    ∀ qs : List Nat,
      ((qs.map fun q => (d, q)).find? (fitsCand enc t)) =
        (findQuality enc d t qs).map fun p => (d, p.1) := by
  intro qs
  induction qs with
  | nil => rfl
  | cons a l ih =>
      simp only [List.map, List.find?, findQuality]
      by_cases hc : (enc d a).length ≤ t
      · rw [if_pos hc]
        simp [fitsCand, hc]
      · rw [if_neg hc]
        simpa [fitsCand, hc] using ih

theorem find_map_scale (enc : Enc) (d : Dims) (t : Nat) :
    ∀ ss : List Nat,
      ((ss.map fun s => (scaleDims d s, 60)).find? (fitsCand enc t)) =
        (findScale enc d t ss).map fun p => (scaleDims d p.1, 60) := by
  intro ss
  induction ss with
  | nil => rfl
  | cons a l ih =>
      simp only [List.map, List.find?, findScale]
      by_cases hc : (enc (scaleDims d a) 60).length ≤ t
      · rw [if_pos hc]
        simp [fitsCand, hc]
      · rw [if_neg hc]
        simpa [fitsCand, hc] using ih

/-- Claim C2 amended: compress_image accepts the first candidate, in the
order it actually iterates (the whole quality ladder at the capped scale
first, then the scale ladder at the fixed quality 60), whose raw size
fits; when no candidate fits it returns the unconditional fallback.  It
does not exhaust the quality ladder at each smaller scale. -/
theorem first_fit_characterization (enc : Enc) (d0 : Dims) (t : Nat) :
    (∀ c, (codeCandidates d0).find? (fitsCand enc t) = some c →
      (compress_image enc d0 t).bytes = enc c.1 c.2 ∧
      (compress_image enc d0 t).usedFallback = false) ∧
    ((codeCandidates d0).find? (fitsCand enc t) = none →
      compress_image enc d0 t = ⟨enc (thumb640 (capDims d0)) 50, 10, 50, true⟩) := by
  have happ := find_append (fitsCand enc t)
    (qualityLadder.map fun q => (capDims d0, q))
    (scaleLadder.map fun s => (scaleDims (capDims d0) s, 60))
  have hfind : (codeCandidates d0).find? (fitsCand enc t) =
      (((findQuality enc (capDims d0) t qualityLadder).map
          fun p => (capDims d0, p.1)).orElse fun _ =>
        (findScale enc (capDims d0) t scaleLadder).map
          fun p => (scaleDims (capDims d0) p.1, 60)) := by
    rw [codeCandidates, happ, find_map_quality, find_map_scale]
  rcases compress_cases enc d0 t with ⟨q, bs, hq, he⟩ | ⟨hq, s, bs, hs, he⟩ | ⟨hq, hs, he⟩
  · rw [hfind, hq]
    constructor
    · intro c hc
      simp only [Option.map_some', Option.some_orElse'] at hc
      cases hc
      rw [he]
      exact ⟨findQuality_some_val enc (capDims d0) t qualityLadder q bs hq, rfl⟩
    · intro hc
      simp only [Option.map_some', Option.some_orElse'] at hc
      cases hc
  · rw [hfind, hq, hs]
    constructor
    · intro c hc
      simp only [Option.map_some', Option.map_none', Option.none_orElse'] at hc
      cases hc
      rw [he]
      exact ⟨findScale_some_val enc (capDims d0) t scaleLadder s bs hs, rfl⟩
    · intro hc
      simp only [Option.map_some', Option.map_none', Option.none_orElse'] at hc
      cases hc
  · rw [hfind, hq, hs]
    refine ⟨fun c hc => ?_, fun _ => he⟩
    simp only [Option.map_none', Option.none_orElse'] at hc
    cases hc

/-- Witness for the C2 amended theorem at a concrete input where the
scale loop accepts the candidate (scale 0.9, quality 60). -/
theorem first_fit_characterization_witness :
    (compress_image enc2ce ⟨100, 100⟩ 5).bytes =
      enc2ce (scaleDims (capDims ⟨100, 100⟩) 9) 60 ∧
    (compress_image enc2ce ⟨100, 100⟩ 5).usedFallback = false :=
  (first_fit_characterization enc2ce ⟨100, 100⟩ 5).1
    (scaleDims (capDims ⟨100, 100⟩) 9, 60) (by decide)

/-- Counterexample to C2 as stated: for this input no full-scale encode
fits, the candidate (scale 0.9, quality 80) fits, and the spec-order
nested search accepts it, but compress_image returns the (scale 0.9,
quality 60) encode instead: the quality ladder is not exhausted at
smaller scales. -/
theorem ladder_order_counterexample :
    (compress_image enc2ce ⟨100, 100⟩ 5).scaleNum = 9 ∧
    (compress_image enc2ce ⟨100, 100⟩ 5).quality = 60 ∧
    fitsCand enc2ce 5 (scaleDims (capDims ⟨100, 100⟩) 9, 80) = true ∧
    specSearch enc2ce (capDims ⟨100, 100⟩) 5 specScaleLadder = some (9, 80, [80]) ∧
    (compress_image enc2ce ⟨100, 100⟩ 5).bytes ≠ [80] := by
  decide

theorem natRound_le_of_le (n d m : Nat) (h : n ≤ m * d) : natRound n d ≤ m := by
  unfold natRound
  rcases Nat.eq_zero_or_pos d with hd | hd
  · subst hd
    simp
  · have h3 : 2 * n ≤ 2 * (m * d) := Nat.mul_le_mul_left 2 h
    have h4 : (m + 1) * (2 * d) = 2 * (m * d) + 2 * d := by ring
    set K := m * d with hK
    have h5 : 2 * n + d < (m + 1) * (2 * d) := by
      rw [h4]
      omega
    exact Nat.lt_succ_iff.mp ((Nat.div_lt_iff_lt_mul (by omega : 0 < 2 * d)).mpr h5)

theorem fitWithin_le (d : Dims) (mw mh : Nat) (hmw : 1 ≤ mw) (hmh : 1 ≤ mh) :
    (fitWithin d mw mh).w ≤ mw ∧ (fitWithin d mw mh).h ≤ mh := by
  unfold fitWithin
  by_cases hc : mh * d.w ≤ mw * d.h
  · rw [if_pos hc]
    exact ⟨max_le hmw (natRound_le_of_le (mh * d.w) d.h mw hc), le_refl mh⟩
  · rw [if_neg hc]
    have hlt : mw * d.h ≤ mh * d.w := le_of_lt (Nat.not_le.mp hc)
    exact ⟨le_refl mw, max_le hmh (natRound_le_of_le (mw * d.h) d.w mh hlt)⟩

theorem capDims_le (d : Dims) : (capDims d).w ≤ 1280 ∧ (capDims d).h ≤ 720 := by
  unfold capDims
  by_cases hc : 1280 < d.w ∨ 720 < d.h
  · rw [if_pos hc]
    exact fitWithin_le d 1280 720 (by omega) (by omega)
  · rw [if_neg hc]
    push_neg at hc
    exact ⟨hc.1, hc.2⟩

theorem capDims_small_eq (d : Dims) (hw : d.w ≤ 1280) (hh : d.h ≤ 720) :
    capDims d = d := by
  unfold capDims
  rw [if_neg (by omega : ¬ (1280 < d.w ∨ 720 < d.h))]

theorem scaleDims_le (d : Dims) (s : Nat) (hs : s ≤ 10) :
    (scaleDims d s).w ≤ d.w ∧ (scaleDims d s).h ≤ d.h := by
  unfold scaleDims
  constructor
  · calc d.w * s / 10 ≤ d.w * 10 / 10 :=
        Nat.div_le_div_right (Nat.mul_le_mul_left _ hs)
      _ = d.w := Nat.mul_div_cancel _ (by omega)
  · calc d.h * s / 10 ≤ d.h * 10 / 10 :=
        Nat.div_le_div_right (Nat.mul_le_mul_left _ hs)
      _ = d.h := Nat.mul_div_cancel _ (by omega)

/-- Claim C7: the initial dimension cap is idempotent after its one
application before the search loop, and every candidate the two loops
encode has both dimensions within the 1280 x 720 cap (the scale loop only
shrinks the once-capped image further). -/
theorem initial_cap_once (d0 : Dims) (hw : 0 < d0.w) (hh : 0 < d0.h) :
    capDims (capDims d0) = capDims d0 ∧
    ∀ c ∈ codeCandidates d0, c.1.w ≤ 1280 ∧ c.1.h ≤ 720 := by
  have hle := capDims_le d0
  constructor
  · exact capDims_small_eq (capDims d0) hle.1 hle.2
  · intro c hc
    simp only [codeCandidates, List.mem_append, List.mem_map] at hc
    rcases hc with ⟨q, hq, rfl⟩ | ⟨s, hs, rfl⟩
    · exact hle
    · have hs10 : s ≤ 10 := by
        simp [scaleLadder] at hs
        omega
      have hsc := scaleDims_le (capDims d0) s hs10
      exact ⟨le_trans hsc.1 hle.1, le_trans hsc.2 hle.2⟩

/-- Witness for C7 at an oversized concrete input. -/
theorem initial_cap_once_witness :
    capDims (capDims ⟨2000, 1000⟩) = capDims ⟨2000, 1000⟩ ∧
    ∀ c ∈ codeCandidates ⟨2000, 1000⟩, c.1.w ≤ 1280 ∧ c.1.h ≤ 720 :=
  initial_cap_once ⟨2000, 1000⟩ (by decide) (by decide)

theorem countQuality_le_length (enc : Enc) (d : Dims) (t : Nat) :
    ∀ qs, countQuality enc d t qs ≤ qs.length := by
  intro qs
  induction qs with
  | nil => exact Nat.le_refl 0
  | cons a l ih =>
      simp only [countQuality, List.length_cons]
      by_cases hc : (enc d a).length ≤ t
      · rw [if_pos hc]
        omega
      · rw [if_neg hc]
        omega

theorem countScale_le_length (enc : Enc) (d : Dims) (t : Nat) :
    ∀ ss, countScale enc d t ss ≤ ss.length := by
  intro ss
  induction ss with
  | nil => exact Nat.le_refl 0
  | cons a l ih =>
      simp only [countScale, List.length_cons]
      by_cases hc : (enc (scaleDims d a) 60).length ≤ t
      · rw [if_pos hc]
        omega
      · rw [if_neg hc]
        omega

/-- Claim C8: one call of compress_image performs a bounded number of
encodes, at most 9 + 6 + 1 = 16, which is within the spec bound of
scale-ladder length times quality-ladder length (the search is a total
function, so it always terminates). -/
theorem search_visits_bounded (enc : Enc) (d0 : Dims) (t : Nat) :
    visitedCount enc d0 t ≤ qualityLadder.length * scaleLadder.length := by
  have h1 := countQuality_le_length enc (capDims d0) t qualityLadder
  have h2 := countScale_le_length enc (capDims d0) t scaleLadder
  have hq9 : qualityLadder.length = 9 := rfl
  have hs6 : scaleLadder.length = 6 := rfl
  rw [hq9] at h1
  rw [hs6] at h2
  simp only [visitedCount]
  cases hfq : findQuality enc (capDims d0) t qualityLadder with
  | some p =>
      show countQuality enc (capDims d0) t qualityLadder ≤ _
      rw [hq9, hs6]
      omega
  | none =>
      cases hfs : findScale enc (capDims d0) t scaleLadder with
      | some p =>
          show qualityLadder.length + countScale enc (capDims d0) t scaleLadder ≤ _
          rw [hq9, hs6]
          omega
      | none =>
          show qualityLadder.length + (scaleLadder.length + 1) ≤ _
          rw [hq9, hs6]
          omega

/-- Counterexample to C10 as stated: a zero-width input passes through
normalization unchanged (so normalized dimensions are not always at least
1) and compress_image still returns a payload: no typed InvalidImage
failure exists in the code. -/
theorem zero_dims_counterexample :
    (capDims ⟨0, 5⟩).w = 0 ∧ ¬ 1 ≤ (capDims ⟨0, 5⟩).w ∧
    (compress_image (fun _ _ => [7]) ⟨0, 5⟩ 10).bytes = [7] ∧
    (compress_image (fun _ _ => [7]) ⟨0, 5⟩ 10).usedFallback = false := by
  decide

/-- Claim C10 amended: compress_image performs no dimension validation at
all: any dimensions already inside the 1280 x 720 cap, including zero
ones, pass through normalization unchanged, and the (possibly degenerate)
image goes straight to the encode step. -/
theorem no_invalid_image_check (d : Dims) (hw : d.w ≤ 1280) (hh : d.h ≤ 720) :
    capDims d = d :=
  capDims_small_eq d hw hh

/-- Witness for the C10 amended theorem at the degenerate input. -/
theorem no_invalid_image_check_witness : capDims ⟨0, 5⟩ = ⟨0, 5⟩ :=
  no_invalid_image_check ⟨0, 5⟩ (by decide) (by decide)

end IABP
